import Mathlib

/-!
Verification of the Pytenberg repository (src/pytenberg.py), a Gmail to
folders materializer.  Strings are embedded as `List Char`; fallible
code is embedded with `Except`/`Option`; the filesystem and the ledger
are embedded as explicit effect lists threaded through a per-message
state.  Python `os.path.splitext`, `str.strip`, `json` serialization
and the attachment admission checks are translated from the source
(CPython semantics for `splitext` and `str.isspace`).
-/

namespace Pytenberg

/-- Strings are embedded as lists of characters. -/
abbrev Str := List Char

/-- The null character stripped by `sanitize_filename`. -/
def nulChar : Char := Char.ofNat 0

/-- Membership of a code point in Python's `str.isspace` set (the set of
characters removed at the ends by `str.strip()` with no arguments). -/
def isPySpace (c : Char) : Bool :=
  let n := c.toNat
  (0x9 ≤ n && n ≤ 0xD) || (0x1C ≤ n && n ≤ 0x1F) || n = 0x20 || n = 0x85 ||
  n = 0xA0 || n = 0x1680 || (0x2000 ≤ n && n ≤ 0x200A) || n = 0x2028 ||
  n = 0x2029 || n = 0x202F || n = 0x205F || n = 0x3000

/-- The character class of `re.sub(r'[<>:\"/\\|?*\n\r\t]', "_", name)` in
`sanitize_filename` (src/pytenberg.py line 45). -/
def reservedClass (c : Char) : Bool :=
  c = '<' || c = '>' || c = ':' || c = '"' || c = '/' || c = '\\' ||
  c = '|' || c = '?' || c = '*' || c = '\n' || c = '\r' || c = '\t'

/-- One character of the `re.sub` replacement: class members become `_`. -/
def replChar (c : Char) : Char :=
  if reservedClass c then '_' else c

/-- Python `str.lstrip`-style removal of leading characters satisfying `p`. -/
def lstripP (p : Char → Bool) (l : Str) : Str :=
  l.dropWhile p

/-- Python `str.rstrip`-style removal of trailing characters satisfying `p`. -/
def rstripP (p : Char → Bool) (l : Str) : Str :=
  (l.reverse.dropWhile p).reverse

/-- Python `str.strip`-style removal at both ends of characters satisfying `p`. -/
def stripP (p : Char → Bool) (l : Str) : Str :=
  rstripP p (lstripP p l)

/-- The fallback literal returned by `sanitize_filename` for empty input or
an empty result. -/
def fallbackName : Str := "attachment.bin".data

/-- `sanitize_filename` (src/pytenberg.py lines 42-46): empty input falls
back, nulls are removed, the reserved class is replaced by `_`, then
`.strip().strip(".")`, with the fallback again when the result is empty. -/
def sanitize_filename (name : Str) : Str :=
  if name = [] then fallbackName
  else
    let n1 := name.filter (fun c => c ≠ nulChar)
    let n2 := n1.map replChar
    let n3 := stripP isPySpace n2
    let n4 := stripP (fun c => c = '.') n3
    if n4 = [] then fallbackName else n4

/-- CPython `os.path.splitext` (posix): split off the extension at the last
dot of the last path component, except that a component consisting of
leading dots only (such as `.bashrc`) has no extension. -/
def splitext (p : Str) : Str × Str :=
  let base := (p.reverse.takeWhile (fun c => c ≠ '/')).reverse
  let dir := p.take (p.length - base.length)
  let lead := base.takeWhile (fun c => c = '.')
  let rest := base.dropWhile (fun c => c = '.')
  if '.' ∈ rest then
    let r := rest.reverse
    let extNoDot := (r.takeWhile (fun c => c ≠ '.')).reverse
    let stemRest := ((r.dropWhile (fun c => c ≠ '.')).tail).reverse
    (dir ++ lead ++ stemRest, '.' :: extNoDot)
  else (p, [])

/-- `os.path.splitext(fname)[1].lower()` (src/pytenberg.py line 189); the
lowering is ASCII case folding, which agrees with Python on every
extension comparable with the allow-list. -/
def extOf (fname : Str) : Str :=
  (splitext fname).2.map Char.toLower

/-- `SAFE_EXT` (src/pytenberg.py line 28). -/
def SAFE_EXT : List Str :=
  [".pdf".data, ".jpg".data, ".jpeg".data, ".png".data, ".txt".data,
   ".doc".data, ".docx".data, ".xls".data, ".xlsx".data, ".csv".data]

/-- `MAX_BYTES = 25 * 1024 * 1024` (src/pytenberg.py line 29). -/
def MAX_BYTES : Nat := 25 * 1024 * 1024

/-- Outcome of the inline attachment admission checks of the main loop. -/
inductive AdmitResult where
  | accepted
  | blockedType
  | blockedSize
deriving DecidableEq, Repr

/-- The admission decision of src/pytenberg.py lines 189-200: extension
allow-list first (reason: unsupported type), then the byte-size cap
(reason: too large). -/
def admitAttachment (fname : Str) (nbytes : Nat) : AdmitResult :=
  if extOf fname ∉ SAFE_EXT then .blockedType
  else if nbytes > MAX_BYTES then .blockedSize
  else .accepted

/-- Decimal digit character. -/
def digitChar (n : Nat) : Char := Char.ofNat (48 + n)

/-- Fueled most-significant-first decimal writer (fuel `n + 1` always
suffices because the recursion divides by ten). -/
def natToStrGo : Nat → Nat → Str
  | 0, _ => []
  | fuel + 1, n =>
    if n < 10 then [digitChar n]
    else natToStrGo fuel (n / 10) ++ [digitChar (n % 10)]

/-- Decimal representation of a natural number. -/
def natToStr (n : Nat) : Str := natToStrGo (n + 1) n

/-- Python `f"{idx:03d}"`: decimal, left-padded with zeros to width 3. -/
def pad3 (n : Nat) : Str :=
  let s := natToStr n
  List.replicate (3 - s.length) '0' ++ s

/-- The per-message directory component `f"email_{idx:03d}"`
(src/pytenberg.py line 177). -/
def emailDirC (idx : Nat) : Str := "email_".data ++ pad3 idx

/-- A MIME part as the gather loop of src/pytenberg.py lines 183-201 sees
it, already enumerated by `iter_parts` (preorder over the part tree) and
with the attachment body already fetched and base64-decoded.  A missing
or empty `filename`/`attachmentId` are both falsy in the source, so both
are embedded as the empty string. -/
structure Part where
  filename : Str
  attachmentId : Str
  blob : List Nat
deriving DecidableEq, Repr

/-- A fully fetched message: the headers the loop reads (`subject`, absent
headers embedded as `none`), the enumerated parts, and the raw RFC-822
bytes from `get_raw_eml`. -/
structure FullMsg where
  subjectHdr : Option Str
  parts : List Part
  raw : List Nat
deriving DecidableEq, Repr

instance {ε α : Type} [DecidableEq ε] [DecidableEq α] :
    DecidableEq (Except ε α)
  | .error a, .error b =>
    if h : a = b then .isTrue (congrArg Except.error h)
    else .isFalse (fun hh => h (Except.error.inj hh))
  | .error _, .ok _ => .isFalse (fun hh => Except.noConfusion hh)
  | .ok _, .error _ => .isFalse (fun hh => Except.noConfusion hh)
  | .ok a, .ok b =>
    if h : a = b then .isTrue (congrArg Except.ok h)
    else .isFalse (fun hh => h (Except.ok.inj hh))

/-- One element of the search result batch: the message id from
`search_gmail`, plus the outcome of everything fetched for this message
(`Except.error e` embeds an exception raised while handling it). -/
structure InMsg where
  mid : Str
  fetch : Except Str FullMsg
deriving DecidableEq, Repr

/-- A filesystem write performed by the main loop. -/
inductive FsEffect where
  | mkdir (path : List Str)
  | write (path : List Str) (content : List Nat)
  | writeManifest (path : List Str) (gmailId : Str) (subject : Str)
      (attachmentsSaved : List Str)
deriving DecidableEq, Repr

/-- A record appended to `gmail_ledger.jsonl` by `append_ledger`. -/
structure LedgerEntry where
  gid : Str
  subject : Str
  dir : List Str
deriving DecidableEq, Repr

/-- The mutable state of `main`'s loop: the ledger ids loaded at start
(never updated during a run, src/pytenberg.py line 162), the
`processed`/`blocked` counters, and the writes and ledger appends
performed so far. -/
structure RunSt where
  seen : Finset Str
  processed : Nat
  blocked : Nat
  effects : List FsEffect
  ledger : List LedgerEntry
deriving DecidableEq

/-- One step of the attachment gathering loop (src/pytenberg.py lines
183-201): skip parts with a falsy filename or attachment id, then apply
the admission checks; rejections bump the blocked counter, accepted
attachments are appended in order. -/
def gatherStep (acc : Nat × List (Str × List Nat)) (p : Part) :
    Nat × List (Str × List Nat) :=
  if p.filename = [] ∨ p.attachmentId = [] then acc
  else
    match admitAttachment p.filename p.blob.length with
    | .blockedType => (acc.1 + 1, acc.2)
    | .blockedSize => (acc.1 + 1, acc.2)
    | .accepted => (acc.1, acc.2 ++ [(p.filename, p.blob)])

/-- The whole gathering loop over the enumerated parts of one message. -/
def gatherParts (parts : List Part) : Nat × List (Str × List Nat) :=
  parts.foldl gatherStep (0, [])

/-- Processing of one message (src/pytenberg.py lines 165-229): the ledger
skip happens first (only when dry-run is off); every exception raised
while fetching or writing for this message surfaces as `Except.error`
(there is no try/except in the loop); dry-run stops after the admission
decisions; otherwise the artifacts are written and a ledger entry is
appended.  Paths are relative to the query's base directory. -/
def processMsg (dry : Bool) (st : RunSt) (idx : Nat) (m : InMsg) :
    Except Str RunSt :=
  if m.mid ∈ st.seen ∧ dry = false then .ok st
  else
    match m.fetch with
    | .error e => .error e
    | .ok full =>
      let subject := full.subjectHdr.getD "No Subject".data
      let g := gatherParts full.parts
      let st1 : RunSt := { st with blocked := st.blocked + g.1 }
      if dry then .ok st1
      else
        let ed := emailDirC idx
        let effs : List FsEffect :=
          [.mkdir [ed], .write [ed, "email.eml".data] full.raw,
           .mkdir [ed, "attachments".data]] ++
          g.2.map (fun a =>
            .write [ed, "attachments".data, sanitize_filename a.1] a.2) ++
          [.writeManifest [ed, "manifest.json".data] m.mid subject
            (g.2.map (fun a => sanitize_filename a.1))]
        .ok { st1 with
              effects := st1.effects ++ effs,
              ledger := st1.ledger ++ [⟨m.mid, subject, [ed]⟩],
              processed := st1.processed + 1 }

/-- The batch loop `for idx, m in enumerate(msgs, 1)` with no surrounding
try/except: the first uncaught per-message exception aborts the run. -/
def runLoop (dry : Bool) : RunSt → Nat → List InMsg → Except Str RunSt
  | st, _, [] => .ok st
  | st, idx, m :: ms =>
    match processMsg dry st idx m with
    | .error e => .error e
    | .ok st1 => runLoop dry st1 (idx + 1) ms

/-- A whole run of the loop from a loaded ledger set. -/
def runBatch (seen : Finset Str) (dry : Bool) (msgs : List InMsg) :
    Except Str RunSt :=
  runLoop dry ⟨seen, 0, 0, [], []⟩ 1 msgs

/-- The ids recorded by the ledger appends of a run. -/
def ledgerIds (l : List LedgerEntry) : Finset Str :=
  (l.map (fun e => e.gid)).toFinset

/-- The destination paths of the plain file writes of a run (empty when the
run aborted). -/
def runWritePaths (seen : Finset Str) (dry : Bool) (msgs : List InMsg) :
    List (List Str) :=
  match runBatch seen dry msgs with
  | .ok st => st.effects.filterMap (fun e =>
      match e with
      | .write p _ => some p
      | _ => none)
  | .error _ => []

/-- Python substring test `needle in hay`. -/
def hasSub (needle : Str) : Str → Bool
  | [] => needle.isPrefixOf []
  | c :: t => needle.isPrefixOf (c :: t) || hasSub needle t

/-- Python `" ".join(bits)`. -/
def joinSpace : List Str → Str
  | [] => []
  | [x] => x
  | x :: y :: xs => x ++ ' ' :: joinSpace (y :: xs)

/-- Query construction of src/pytenberg.py lines 145-151: append
`in:inbox` when the query has no `in:` substring and `-in:spam` when it
has no `-in:spam` substring, then join with spaces. -/
def gmailQuery (q : Str) : Str :=
  joinSpace ([q] ++
    (if hasSub "in:".data q then [] else ["in:inbox".data]) ++
    (if hasSub "-in:spam".data q then [] else ["-in:spam".data]))

/-- One page of a Gmail `messages.list` response: the message ids and the
optional continuation token. -/
structure GPage where
  messages : List Str
  nextPageToken : Option Str
deriving DecidableEq, Repr

/-- The pagination loop of `search_gmail` (src/pytenberg.py lines 68-79).
The service is embedded as a function from (request index, requested
`maxResults`) to the returned page; `k` counts issued requests.  The
fuel bounds the number of iterations; every theorem proved about the
loop holds for every fuel value. -/
def searchLoop (svc : Nat → Nat → GPage) (limit : Int) :
    Nat → Nat → List Str → List Str × Nat
  | 0, k, acc => (acc, k)
  | fuel + 1, k, acc =>
    if (acc.length : Int) < limit then
      let maxR := min 100 (limit - (acc.length : Int))
      let page := svc k maxR.toNat
      let acc1 := acc ++ page.messages
      match page.nextPageToken with
      | none => (acc1, k + 1)
      | some _ => searchLoop svc limit fuel (k + 1) acc1
    else (acc, k)

/-- `search_gmail(service, query, limit)`: returns the collected message
ids and the number of list requests issued. -/
def search_gmail (svc : Nat → Nat → GPage) (limit : Int) (fuel : Nat) :
    List Str × Nat :=
  searchLoop svc limit fuel 0 []

/-- A character that JSON serialization emits verbatim inside a string:
printable and neither quote nor backslash. -/
def plainChar (c : Char) : Bool :=
  decide (0x20 ≤ c.toNat) && c ≠ '"' && c ≠ '\\'

/-- All characters plain. -/
def plainStr (s : Str) : Bool := s.all plainChar

/-- Hexadecimal digit character (lowercase, as CPython emits). -/
def hexDigitChar (n : Nat) : Char :=
  if n < 10 then Char.ofNat (48 + n) else Char.ofNat (87 + n)

/-- `json.dumps` escaping of one character with `ensure_ascii=False`:
quote, backslash and control characters are escaped, everything else is
emitted verbatim. -/
def escChar (c : Char) : Str :=
  if plainChar c then [c]
  else if c = '"' then ['\\', '"']
  else if c = '\\' then ['\\', '\\']
  else if c = '\n' then ['\\', 'n']
  else if c = '\r' then ['\\', 'r']
  else if c = '\t' then ['\\', 't']
  else if c = Char.ofNat 8 then ['\\', 'b']
  else if c = Char.ofNat 12 then ['\\', 'f']
  else ['\\', 'u', '0', '0', hexDigitChar (c.toNat / 16),
        hexDigitChar (c.toNat % 16)]

/-- `json.dumps` escaping of a whole string. -/
def escStr (s : Str) : Str := s.flatMap escChar

/-- A JSON string literal: quote, escaped body, quote. -/
def jquote (s : Str) : Str := '"' :: (escStr s ++ ['"'])

/-- The line body written by `append_ledger` (src/pytenberg.py lines
110-118): `json.dumps` of the four-field record with its default
separators, the subject already truncated; the timestamp string is a
parameter (the code takes it from the clock). -/
def dumpsRecord (ts gid subj dir : Str) : Str :=
  "\x7b\"ts\": ".data ++ jquote ts ++
  ", \"gmail_id\": ".data ++ jquote gid ++
  ", \"subject\": ".data ++ jquote subj ++
  ", \"dir\": ".data ++ jquote dir ++ "\x7d".data

/-- The full appended line: the subject is truncated to 120 characters
(`subject[:120]`). -/
def appendLedgerLine (ts gid subj dir : Str) : Str :=
  dumpsRecord ts gid (subj.take 120) dir

/-- JSON inter-token whitespace. -/
def isJsonWs (c : Char) : Bool :=
  c = ' ' || c = '\t' || c = '\n' || c = '\r'

/-- Skip JSON whitespace. -/
def skipWs (s : Str) : Str := s.dropWhile isJsonWs

/-- Decode one single-character JSON escape. -/
def unescChar (c : Char) : Option Char :=
  if c = '"' then some '"'
  else if c = '\\' then some '\\'
  else if c = '/' then some '/'
  else if c = 'n' then some '\n'
  else if c = 'r' then some '\r'
  else if c = 't' then some '\t'
  else if c = 'b' then some (Char.ofNat 8)
  else if c = 'f' then some (Char.ofNat 12)
  else none

/-- Value of a hexadecimal digit. -/
def hexVal (c : Char) : Option Nat :=
  if '0' ≤ c ∧ c ≤ '9' then some (c.toNat - 48)
  else if 'a' ≤ c ∧ c ≤ 'f' then some (c.toNat - 87)
  else if 'A' ≤ c ∧ c ≤ 'F' then some (c.toNat - 55)
  else none

/-- Parse the body of a JSON string after its opening quote, returning the
decoded body and the input after the closing quote; raw control
characters are rejected as `json.loads` does in strict mode. -/
def parseStringBody : Str → Option (Str × Str)
  | [] => none
  | c :: rest =>
    if c = '"' then some ([], rest)
    else if c = '\\' then
      match rest with
      | [] => none
      | e :: rest2 =>
        if e = 'u' then
          match rest2 with
          | h1 :: h2 :: h3 :: h4 :: rest3 =>
            match hexVal h1, hexVal h2, hexVal h3, hexVal h4 with
            | some a, some b, some c2, some d =>
              match parseStringBody rest3 with
              | some (s, r) =>
                some (Char.ofNat (((a * 16 + b) * 16 + c2) * 16 + d) :: s, r)
              | none => none
            | _, _, _, _ => none
          | _ => none
        else
          match unescChar e with
          | some d =>
            match parseStringBody rest2 with
            | some (s, r) => some (d :: s, r)
            | none => none
          | none => none
    else if c.toNat < 0x20 then none
    else
      match parseStringBody rest with
      | some (s, r) => some (c :: s, r)
      | none => none

/-- Parse one `"key": "value"` pair (leading whitespace allowed), returning
the pair and the rest of the input. -/
def parsePair (s : Str) : Option ((Str × Str) × Str) :=
  match skipWs s with
  | c1 :: r1 =>
    if c1 = '"' then
      match parseStringBody r1 with
      | some (k, r2) =>
        match skipWs r2 with
        | c2 :: r3 =>
          if c2 = ':' then
            match skipWs r3 with
            | c3 :: r4 =>
              if c3 = '"' then
                match parseStringBody r4 with
                | some (v, r5) => some ((k, v), r5)
                | none => none
              else none
            | [] => none
          else none
        | [] => none
      | none => none
    else none
  | [] => none

/-- Parse the comma-separated pairs of an object body up to the closing
brace; the fuel bounds the number of pairs (one unit per pair, so input
length plus one always suffices). -/
def parsePairs : Nat → Str → List (Str × Str) → Option (List (Str × Str) × Str)
  | 0, _, _ => none
  | fuel + 1, s, acc =>
    match parsePair s with
    | some (kv, r) =>
      match skipWs r with
      | c :: r2 =>
        if c = ',' then parsePairs fuel r2 (acc ++ [kv])
        else if c = Char.ofNat 0x7d then some (acc ++ [kv], r2)
        else none
      | [] => none
    | none => none

/-- The model of `json.loads` used by `load_ledger`: parse a flat JSON
object whose values are strings.  Any other line yields `none`; in the
source such a line either raises (caught and skipped) or produces a
record whose `.get("gmail_id")` is not a usable id, so for the ledger
this program writes the two agree. -/
def jsonLoads (s : Str) : Option (List (Str × Str)) :=
  match skipWs s with
  | c :: r1 =>
    if c = Char.ofNat 0x7b then
      match skipWs r1 with
      | d :: r2 =>
        if d = Char.ofNat 0x7d then
          if skipWs r2 = [] then some [] else none
        else
          match parsePairs (s.length + 1) (d :: r2) [] with
          | some (kvs, rest) => if skipWs rest = [] then some kvs else none
          | none => none
      | [] => none
    else none
  | [] => none

/-- `dict.get`: the last occurrence of a key wins, as when CPython builds
the dict. -/
def lookupLast (k : Str) (kvs : List (Str × Str)) : Option Str :=
  (kvs.reverse.find? (fun kv => kv.1 = k)).map (fun kv => kv.2)

/-- `load_ledger` (src/pytenberg.py lines 95-108) over the lines of the
ledger file: every line that parses and holds a truthy `gmail_id`
contributes it to the set; all other lines are skipped silently. -/
def loadLedger (lines : List Str) : Finset Str :=
  lines.foldl
    (fun seen line =>
      match jsonLoads line with
      | some kvs =>
        match lookupLast "gmail_id".data kvs with
        | some gid => if gid ≠ [] then insert gid seen else seen
        | none => seen
      | none => seen)
    ∅

/-- Modelled from the spec: the Path Allocator (spec section 4.3) is part
of the local-file mode of this repository, which is not under src/ (only
the testbed scaffolding refers to it); candidate `n` inserts the
incrementing integer in parentheses immediately before the extension. -/
def pyAllocCandidate (stem ext : Str) (n : Nat) : Str :=
  stem ++ ' ' :: '(' :: (natToStr n ++ ')' :: ext)

/-- Modelled from the spec: try candidates in order, returning the first
whose path does not exist; the fuel is chosen by `allocate` so that it
never runs out. -/
def allocateLoop (fs : Finset Str) (stem ext : Str) : Nat → Nat → Str
  | 0, n => pyAllocCandidate stem ext n
  | fuel + 1, n =>
    let cand := pyAllocCandidate stem ext n
    if cand ∈ fs then allocateLoop fs stem ext fuel (n + 1) else cand

/-- Modelled from the spec: `allocate(desired_path)` against the set `fs`
of currently existing paths: return the desired path unchanged when it
does not exist, else the first free numbered candidate starting at 1. -/
def allocate (fs : Finset Str) (p : Str) : Str :=
  if p ∈ fs then
    let se := splitext p
    allocateLoop fs se.1 se.2 (fs.card + 1) 1
  else p

/-- Modelled from the spec: a single-threaded sequential caller that
records each allocated path as existing before the next allocation. -/
def allocateAll (fs : Finset Str) : List Str → List Str
  | [] => []
  | p :: ps =>
    let a := allocate fs p
    a :: allocateAll (insert a fs) ps

/-- Whether the first character, if any, fails a predicate. -/
def headNot (p : Char → Bool) (l : Str) : Bool :=
  match l.head? with
  | some c => !p c
  | none => true

/-- Whether the last character, if any, fails a predicate. -/
def lastNot (p : Char → Bool) (l : Str) : Bool :=
  match l.getLast? with
  | some c => !p c
  | none => true

/-- The blocked-attachment count the admission checks compute for one
message (zero where the fetch failed, a case excluded wherever this
function is used under a completed run). -/
def countBlockedMsg (m : InMsg) : Nat :=
  match m.fetch with
  | .ok f => (gatherParts f.parts).1
  | .error _ => 0

/-- Decimal value of a digit string, inverse to `natToStr`. -/
def strVal (s : Str) : Nat :=
  s.foldl (fun a c => 10 * a + (c.toNat - 48)) 0

theorem mem_of_mem_rstripP {p : Char → Bool} {l : Str} {c : Char}
    (h : c ∈ rstripP p l) : c ∈ l := by
  have h1 : c ∈ l.reverse.dropWhile p := by
    simpa [rstripP] using h
  have h2 := (List.dropWhile_suffix p (l := l.reverse)).subset h1
  simpa using h2

theorem mem_of_mem_stripP {p : Char → Bool} {l : Str} {c : Char}
    (h : c ∈ stripP p l) : c ∈ l := by
  have h1 : c ∈ lstripP p l := mem_of_mem_rstripP h
  exact (List.dropWhile_suffix p (l := l)).subset h1

theorem dropWhile_eq_self_of_headNot {p : Char → Bool} {l : Str}
    (h : headNot p l = true) : l.dropWhile p = l := by
  cases l with
  | nil => rfl
  | cons a t =>
    have ha : p a = false := by
      simpa [headNot] using h
    simp [List.dropWhile_cons, ha]

theorem rstripP_eq_self_of_lastNot {p : Char → Bool} {l : Str}
    (h : lastNot p l = true) : rstripP p l = l := by
  have hh : headNot p l.reverse = true := by
    cases hl : l.reverse.head? with
    | none => simp [headNot, hl]
    | some c =>
      have : l.getLast? = some c := by
        rw [← List.head?_reverse]; exact hl
      simp only [headNot, hl]
      simpa [lastNot, this] using h
  have := dropWhile_eq_self_of_headNot hh
  simp [rstripP, this]

theorem stripP_eq_self {p : Char → Bool} {l : Str}
    (h1 : headNot p l = true) (h2 : lastNot p l = true) : stripP p l = l := by
  have e1 : lstripP p l = l := dropWhile_eq_self_of_headNot h1
  simp [stripP, e1, rstripP_eq_self_of_lastNot h2]

theorem headNot_stripP (p : Char → Bool) (l : Str) :
    headNot p (stripP p l) = true := by
  have hpre : stripP p l <+: l.dropWhile p := by
    refine ⟨((l.dropWhile p).reverse.takeWhile p).reverse, ?_⟩
    have key := List.takeWhile_append_dropWhile (p := p)
      (l := (l.dropWhile p).reverse)
    show ((l.dropWhile p).reverse.dropWhile p).reverse ++
        ((l.dropWhile p).reverse.takeWhile p).reverse = l.dropWhile p
    rw [← List.reverse_append, key, List.reverse_reverse]
  cases hh : (stripP p l).head? with
  | none => simp [headNot, hh]
  | some c =>
    have hc : (l.dropWhile p).head? = some c := by
      obtain ⟨t, ht⟩ := hpre
      cases hs : stripP p l with
      | nil => rw [hs] at hh; simp at hh
      | cons a u =>
        rw [hs] at hh ht
        simp at hh
        rw [← ht, ← hh]
        simp
    have := List.head?_dropWhile_not p l
    rw [hc] at this
    simp [headNot, hh, this]

theorem lastNot_stripP (p : Char → Bool) (l : Str) :
    lastNot p (stripP p l) = true := by
  cases hh : (stripP p l).getLast? with
  | none => simp [lastNot, hh]
  | some c =>
    have hrev : ((lstripP p l).reverse.dropWhile p).head? = some c := by
      have : (stripP p l).getLast? =
          ((lstripP p l).reverse.dropWhile p).reverse.getLast? := rfl
      rw [this] at hh
      rwa [List.getLast?_reverse] at hh
    have := List.head?_dropWhile_not p (lstripP p l).reverse
    rw [hrev] at this
    simp [lastNot, hh, this]

theorem map_eq_self_of_mem {f : Char → Char} {l : Str}
    (h : ∀ c ∈ l, f c = c) : l.map f = l := by
  induction l with
  | nil => rfl
  | cons a t ih =>
    simp only [List.map_cons, h a (by simp)]
    rw [ih (fun c hc => h c (by simp [hc]))]

/-- Every character of a sanitized name avoids the replaced class and the
stripped null. -/
theorem sanitize_mem_clean {x : Str} {c : Char} (h : c ∈ sanitize_filename x) :
    reservedClass c = false ∧ c ≠ nulChar := by
  have hfb : ∀ d ∈ fallbackName, reservedClass d = false ∧ d ≠ nulChar := by
    decide
  by_cases hx : x = []
  · rw [sanitize_filename, if_pos hx] at h
    exact hfb c h
  · rw [sanitize_filename, if_neg hx] at h
    set n1 := x.filter (fun c => c ≠ nulChar) with hn1
    set n2 := n1.map replChar with hn2
    set n3 := stripP isPySpace n2 with hn3
    set n4 := stripP (fun c => c = '.') n3 with hn4
    by_cases h4 : n4 = []
    · rw [if_pos h4] at h
      exact hfb c h
    · rw [if_neg h4] at h
      have hc3 : c ∈ n3 := mem_of_mem_stripP h
      have hc2 : c ∈ n2 := mem_of_mem_stripP hc3
      obtain ⟨d, hd, hdc⟩ := List.mem_map.mp hc2
      by_cases hres : reservedClass d = true
      · have : c = '_' := by rw [← hdc]; simp [replChar, hres]
        subst this
        exact ⟨by decide, by decide⟩
      · have hcd : c = d := by
          rw [← hdc]; simp [replChar, hres]
        subst hcd
        refine ⟨by simpa using hres, ?_⟩
        have := List.mem_filter.mp hd
        simpa using this.2

/-- The structure of a sanitized name: the fallback literal, or the doubly
stripped replacement of the input. -/
theorem sanitize_cases (x : Str) :
    sanitize_filename x = fallbackName ∨
      (sanitize_filename x =
        stripP (fun c => c = '.')
          (stripP isPySpace ((x.filter (fun c => c ≠ nulChar)).map replChar)) ∧
       sanitize_filename x ≠ []) := by
  by_cases hx : x = []
  · left; rw [sanitize_filename, if_pos hx]
  · rw [sanitize_filename, if_neg hx]
    by_cases h4 : stripP (fun c => c = '.')
        (stripP isPySpace ((x.filter (fun c => c ≠ nulChar)).map replChar)) = []
    · left; rw [if_pos h4]
    · right; rw [if_neg h4]; exact ⟨rfl, h4⟩

theorem sanitize_fallback_fixed :
    sanitize_filename fallbackName = fallbackName := by decide

/-- Unfolding of the sanitizer on nonempty input. -/
theorem sanitize_eq (x : Str) (hx : x ≠ []) :
    sanitize_filename x =
      (if stripP (fun c => c = '.')
            (stripP isPySpace
              ((x.filter (fun c => c ≠ nulChar)).map replChar)) = []
       then fallbackName
       else stripP (fun c => c = '.')
         (stripP isPySpace
           ((x.filter (fun c => c ≠ nulChar)).map replChar))) := by
  simp only [sanitize_filename]
  rw [if_neg hx]

/-- C4 (amended): the sanitizer's output never contains a reserved
character, a null, a tab, a line feed or a carriage return — those are
replaced by `_` or stripped; other control characters pass through. -/
theorem claim4_no_reserved_in_output (x : Str) (c : Char)
    (h : c ∈ sanitize_filename x) :
    (c = '<' ∨ c = '>' ∨ c = ':' ∨ c = '"' ∨ c = '/' ∨ c = '\\' ∨ c = '|' ∨
     c = '?' ∨ c = '*' ∨ c = '\n' ∨ c = '\r' ∨ c = '\t' ∨ c = nulChar) →
    False := by
  have ⟨hres, hnul⟩ := sanitize_mem_clean h
  intro hbad
  rcases hbad with h | h | h | h | h | h | h | h | h | h | h | h | h <;>
    subst h <;> simp_all [reservedClass]

/-- C4 fails as stated: a control character other than null, tab, line
feed and carriage return (here `U+0001`) survives sanitization, so the
output is not free of control characters. -/
theorem claim4_counterexample :
    Char.ofNat 1 ∈ sanitize_filename ['a', Char.ofNat 1, 'b'] ∧
      (Char.ofNat 1).toNat < 0x20 := by decide

/-- C4 witness: the amended theorem applied at a concrete input. -/
theorem claim4_witness : ¬ ('_' = '<' ∨ '_' = '>' ∨ '_' = ':' ∨ '_' = '"' ∨
    '_' = '/' ∨ '_' = '\\' ∨ '_' = '|' ∨ '_' = '?' ∨ '_' = '*' ∨ '_' = '\n' ∨
    '_' = '\r' ∨ '_' = '\t' ∨ '_' = nulChar) :=
  claim4_no_reserved_in_output ['<'] '_' (by decide)

/-- C9 (amended): the sanitizer is idempotent on every input whose
sanitized form neither starts nor ends with whitespace (in particular
whenever dot-stripping exposed no surrounding whitespace). -/
theorem claim9_idempotent_when_ends_clean (x : Str)
    (h1 : headNot isPySpace (sanitize_filename x) = true)
    (h2 : lastNot isPySpace (sanitize_filename x) = true) :
    sanitize_filename (sanitize_filename x) = sanitize_filename x := by
  rcases sanitize_cases x with hfb | ⟨hform, hne⟩
  · rw [hfb]; exact sanitize_fallback_fixed
  · set y := sanitize_filename x with hy
    have hclean : ∀ c ∈ y, reservedClass c = false ∧ c ≠ nulChar :=
      fun c hc => sanitize_mem_clean hc
    have hfilter : y.filter (fun c => c ≠ nulChar) = y :=
      List.filter_eq_self.mpr (fun c hc => by
        simpa using (hclean c hc).2)
    have hmap : y.map replChar = y :=
      map_eq_self_of_mem (fun c hc => by
        simp [replChar, (hclean c hc).1])
    have hsp : stripP isPySpace y = y := stripP_eq_self h1 h2
    have hdot : stripP (fun c => c = '.') y = y := by
      refine stripP_eq_self ?_ ?_
      · rw [hform]; exact headNot_stripP _ _
      · rw [hform]; exact lastNot_stripP _ _
    have he := sanitize_eq y hne
    rw [hfilter, hmap, hsp, hdot, if_neg hne] at he
    exact he

/-- C9 fails as stated: `". a ."` sanitizes to `" a "` (dot-stripping
exposes the spaces), whose sanitization is `"a"`. -/
theorem claim9_counterexample :
    sanitize_filename (sanitize_filename ". a .".data) ≠
      sanitize_filename ". a .".data := by decide

/-- C9 witness: the amended theorem applied at a concrete input. -/
theorem claim9_witness :
    sanitize_filename (sanitize_filename "hello".data) =
      sanitize_filename "hello".data :=
  claim9_idempotent_when_ends_clean "hello".data (by decide) (by decide)

theorem processMsg_skip {st : RunSt} {idx : Nat} {m : InMsg}
    (h : m.mid ∈ st.seen) : processMsg false st idx m = .ok st := by
  simp [processMsg, h]

theorem processMsg_error {st : RunSt} {idx : Nat} {m : InMsg} {e : Str}
    (hf : m.fetch = .error e) (hns : ¬ (m.mid ∈ st.seen ∧ (false : Bool) = false)) :
    processMsg false st idx m = .error e := by
  rw [processMsg, if_neg hns, hf]

theorem processMsg_false_fields {st st1 : RunSt} {idx : Nat} {m : InMsg}
    (h : processMsg false st idx m = .ok st1) :
    st1.seen = st.seen ∧
      ((st1 = st ∧ m.mid ∈ st.seen) ∨
       ∃ su, st1.ledger = st.ledger ++ [⟨m.mid, su, [emailDirC idx]⟩]) := by
  by_cases hmem : m.mid ∈ st.seen
  · rw [processMsg_skip hmem] at h
    have : st = st1 := by simpa using h
    subst this
    exact ⟨rfl, Or.inl ⟨rfl, hmem⟩⟩
  · cases hf : m.fetch with
    | error e =>
      rw [processMsg_error hf (by simp [hmem])] at h
      simp at h
    | ok full =>
      rw [processMsg, if_neg (by simp [hmem]), hf] at h
      simp only [if_neg (Bool.false_ne_true)] at h
      have := (Except.ok.inj h).symm
      subst this
      exact ⟨rfl, Or.inr ⟨_, rfl⟩⟩

theorem processMsg_dry_fields {st st1 : RunSt} {idx : Nat} {m : InMsg}
    (h : processMsg true st idx m = .ok st1) :
    ∃ full, m.fetch = .ok full ∧
      st1 = { st with blocked := st.blocked + (gatherParts full.parts).1 } := by
  cases hf : m.fetch with
  | error e =>
    rw [processMsg, if_neg (by simp), hf] at h
    simp at h
  | ok full =>
    rw [processMsg, if_neg (by simp), hf] at h
    simp only [if_pos rfl] at h
    exact ⟨full, rfl, (Except.ok.inj h).symm⟩

theorem runLoop_append_ok {dry : Bool} {st st1 : RunSt} {idx : Nat}
    {l1 : List InMsg} (l2 : List InMsg)
    (h : runLoop dry st idx l1 = .ok st1) :
    runLoop dry st idx (l1 ++ l2) = runLoop dry st1 (idx + l1.length) l2 := by
  induction l1 generalizing st idx with
  | nil =>
    have : st = st1 := by simpa [runLoop] using h
    subst this
    simp [runLoop]
  | cons m ms ih =>
    rw [runLoop] at h
    rw [List.cons_append, runLoop]
    cases hp : processMsg dry st idx m with
    | error e => rw [hp] at h; simp at h
    | ok st2 =>
      rw [hp] at h
      have hrec := ih h
      simp only [List.length_cons]
      rw [show idx + (ms.length + 1) = idx + 1 + ms.length by omega]
      exact hrec

/-- Completed runs preserve the loaded ledger set and only append entries. -/
theorem runLoop_mono {dry : Bool} {msgs : List InMsg} {st st1 : RunSt}
    {idx : Nat} (h : runLoop dry st idx msgs = .ok st1) :
    st1.seen = st.seen ∧ ∃ t, st1.ledger = st.ledger ++ t := by
  induction msgs generalizing st idx with
  | nil =>
    have : st = st1 := by simpa [runLoop] using h
    subst this
    exact ⟨rfl, [], by simp⟩
  | cons m ms ih =>
    rw [runLoop] at h
    cases hp : processMsg dry st idx m with
    | error e => rw [hp] at h; simp at h
    | ok st2 =>
      rw [hp] at h
      obtain ⟨hseen2, t, ht⟩ := ih h
      cases dry with
      | false =>
        obtain ⟨hs, hcase⟩ := processMsg_false_fields hp
        rcases hcase with ⟨rfl, _⟩ | ⟨su, hl⟩
        · exact ⟨hseen2, t, ht⟩
        · exact ⟨hseen2.trans hs, _, by rw [ht, hl, List.append_assoc]⟩
      | true =>
        obtain ⟨full, _, rfl⟩ := processMsg_dry_fields hp
        exact ⟨hseen2, t, ht⟩

/-- In a completed non-dry run, every message id ends up either already in
the loaded set or among the ids appended to the ledger. -/
theorem runLoop_covers {msgs : List InMsg} {st st1 : RunSt} {idx : Nat}
    (h : runLoop false st idx msgs = .ok st1) :
    ∀ m ∈ msgs, m.mid ∈ st.seen ∨ m.mid ∈ ledgerIds st1.ledger := by
  induction msgs generalizing st idx with
  | nil => intro m hm; simp at hm
  | cons m0 ms ih =>
    intro m hm
    rw [runLoop] at h
    cases hp : processMsg false st idx m0 with
    | error e => rw [hp] at h; simp at h
    | ok st2 =>
      rw [hp] at h
      obtain ⟨hs, hcase⟩ := processMsg_false_fields hp
      rcases List.mem_cons.mp hm with rfl | hmtail
      · rcases hcase with ⟨rfl, hmem⟩ | ⟨su, hl⟩
        · exact Or.inl hmem
        · right
          obtain ⟨_, t, ht⟩ := runLoop_mono h
          rw [ht, hl]
          simp [ledgerIds]
      · rcases ih h m hmtail with hseen | hledger
        · exact Or.inl (by rwa [hs] at hseen)
        · exact Or.inr hledger

/-- A non-dry run in which every message id is already in the loaded set
skips everything and leaves the state unchanged. -/
theorem runLoop_all_skip {msgs : List InMsg} {st : RunSt} {idx : Nat}
    (h : ∀ m ∈ msgs, m.mid ∈ st.seen) :
    runLoop false st idx msgs = .ok st := by
  induction msgs generalizing idx with
  | nil => simp [runLoop]
  | cons m ms ih =>
    have hskip := @processMsg_skip st idx m (h m (by simp))
    simp only [runLoop, hskip]
    exact ih (fun m' hm' => h m' (by simp [hm']))

/-- C1 (amended): there is no per-message exception handler — the first
exception raised while handling a message propagates out of the loop and
aborts the batch, whatever messages remain. -/
theorem claim1_error_aborts_batch (dry : Bool) (st st1 : RunSt) (idx : Nat)
    (pre rest : List InMsg) (m : InMsg) (e : Str)
    (hpre : runLoop dry st idx pre = .ok st1)
    (hf : m.fetch = .error e)
    (hns : ¬ (m.mid ∈ st1.seen ∧ dry = false)) :
    runLoop dry st idx (pre ++ m :: rest) = .error e := by
  rw [runLoop_append_ok (m :: rest) hpre]
  have hpm : processMsg dry st1 (idx + pre.length) m = .error e := by
    rw [processMsg, if_neg hns, hf]
  simp only [runLoop, hpm]

/-- C1 fails as stated: with a first message whose fetch raises and a
second healthy message, the run aborts with the error instead of counting
the failure and continuing. -/
theorem claim1_counterexample :
    runBatch ∅ false
      [⟨"a".data, .error "boom".data⟩, ⟨"b".data, .ok ⟨none, [], []⟩⟩] =
      .error "boom".data ∧
    (runBatch ∅ false
      [⟨"a".data, .error "boom".data⟩, ⟨"b".data, .ok ⟨none, [], []⟩⟩]).isOk =
      false := by decide

/-- C1 witness: the amended theorem applied at a concrete input. -/
theorem claim1_witness :
    runLoop false ⟨∅, 0, 0, [], []⟩ 1
      ([] ++ ⟨"a".data, .error "boom".data⟩ ::
        [⟨"b".data, .ok ⟨none, [], []⟩⟩]) = .error "boom".data :=
  claim1_error_aborts_batch false ⟨∅, 0, 0, [], []⟩ ⟨∅, 0, 0, [], []⟩ 1
    [] [⟨"b".data, .ok ⟨none, [], []⟩⟩] ⟨"a".data, .error "boom".data⟩
    "boom".data (by rfl) (by rfl) (by decide)

/-- C2: a message whose id is in the loaded ledger set is skipped with the
state untouched (no writes, no ledger append, not counted), and a second
non-dry run over the same messages after a completed run performs nothing
at all: no effects, no appends, zero processed. -/
theorem claim2_ledger_skip_idempotent :
    (∀ (st : RunSt) (idx : Nat) (m : InMsg),
      m.mid ∈ st.seen → processMsg false st idx m = .ok st) ∧
    (∀ (seen : Finset Str) (msgs : List InMsg) (st1 : RunSt),
      runBatch seen false msgs = .ok st1 →
      runBatch (seen ∪ ledgerIds st1.ledger) false msgs =
        .ok ⟨seen ∪ ledgerIds st1.ledger, 0, 0, [], []⟩) := by
  constructor
  · intro st idx m h
    exact processMsg_skip h
  · intro seen msgs st1 h
    apply runLoop_all_skip
    intro m hm
    rcases runLoop_covers h m hm with hseen | hledger
    · simp only [RunSt.seen] at hseen ⊢
      exact Finset.mem_union_left _ hseen
    · exact Finset.mem_union_right _ hledger

/-- C2 witness: both parts applied at concrete inputs. -/
theorem claim2_witness :
    processMsg false ⟨{"x".data}, 0, 0, [], []⟩ 1
      ⟨"x".data, .ok ⟨none, [], []⟩⟩ = .ok ⟨{"x".data}, 0, 0, [], []⟩ ∧
    runBatch (∅ ∪ ledgerIds
        [⟨"m1".data, "No Subject".data, [emailDirC 1]⟩]) false
      [⟨"m1".data, .ok ⟨none, [], []⟩⟩] =
      .ok ⟨∅ ∪ ledgerIds [⟨"m1".data, "No Subject".data, [emailDirC 1]⟩],
        0, 0, [], []⟩ := by
  constructor
  · exact claim2_ledger_skip_idempotent.1 _ 1 _ (by decide)
  · exact claim2_ledger_skip_idempotent.2 ∅ [⟨"m1".data, .ok ⟨none, [], []⟩⟩]
      ⟨∅, 1, 0,
        [.mkdir [emailDirC 1], .write [emailDirC 1, "email.eml".data] [],
         .mkdir [emailDirC 1, "attachments".data],
         .writeManifest [emailDirC 1, "manifest.json".data] "m1".data
           "No Subject".data []],
        [⟨"m1".data, "No Subject".data, [emailDirC 1]⟩]⟩ (by decide)

/-- A completed dry run changes nothing but the blocked counter, which
accumulates exactly the per-message admission rejections. -/
theorem runLoop_dry {msgs : List InMsg} {st st1 : RunSt} {idx : Nat}
    (h : runLoop true st idx msgs = .ok st1) :
    st1.effects = st.effects ∧ st1.ledger = st.ledger ∧
      st1.processed = st.processed ∧ st1.seen = st.seen ∧
      st1.blocked = st.blocked + (msgs.map countBlockedMsg).sum := by
  induction msgs generalizing st idx with
  | nil =>
    have : st = st1 := by simpa [runLoop] using h
    subst this
    simp
  | cons m ms ih =>
    rw [runLoop] at h
    cases hp : processMsg true st idx m with
    | error e => rw [hp] at h; simp at h
    | ok st2 =>
      rw [hp] at h
      obtain ⟨full, hf, rfl⟩ := processMsg_dry_fields hp
      obtain ⟨h1, h2, h3, h4, h5⟩ := ih h
      refine ⟨h1, h2, h3, h4, ?_⟩
      rw [h5]
      simp [countBlockedMsg, hf]
      omega

/-- C6: in dry-run mode a completed run performs no filesystem effect of
any kind and appends nothing to the ledger, while the admission decisions
are still evaluated (the blocked counter equals the sum of the
per-message rejection counts). -/
theorem claim6_dry_run_no_writes (seen : Finset Str) (msgs : List InMsg)
    (st1 : RunSt) (h : runBatch seen true msgs = .ok st1) :
    st1.effects = [] ∧ st1.ledger = [] ∧ st1.processed = 0 ∧
      st1.blocked = (msgs.map countBlockedMsg).sum := by
  obtain ⟨h1, h2, h3, _, h5⟩ := runLoop_dry h
  exact ⟨h1, h2, h3, by simpa using h5⟩

/-- C6 witness: the theorem applied to a concrete dry run over a message
with one rejected attachment. -/
theorem claim6_witness :
    (⟨∅, 0, 1, [], []⟩ : RunSt).effects = [] ∧
    (⟨∅, 0, 1, [], []⟩ : RunSt).ledger = [] ∧
    (⟨∅, 0, 1, [], []⟩ : RunSt).processed = 0 ∧
    (⟨∅, 0, 1, [], []⟩ : RunSt).blocked =
      (([⟨"a".data, .ok ⟨none, [⟨"x.exe".data, "id1".data, []⟩], []⟩⟩] :
        List InMsg).map countBlockedMsg).sum :=
  claim6_dry_run_no_writes ∅
    [⟨"a".data, .ok ⟨none, [⟨"x.exe".data, "id1".data, []⟩], []⟩⟩]
    ⟨∅, 0, 1, [], []⟩ (by decide)

/-- C3: an attachment is accepted iff its lower-cased extension is in the
allow-list and its byte length is at most the 25 MB cap; the two
rejection reasons (unsupported type first, then too large), the 30 MB
`.pdf` example, and continuation of the gathering loop past a rejection
(counted, parent message not aborted). -/
theorem claim3_admission_filter :
    (∀ (f : Str) (n : Nat),
      admitAttachment f n = .accepted ↔ extOf f ∈ SAFE_EXT ∧ n ≤ MAX_BYTES) ∧
    (∀ (f : Str) (n : Nat),
      extOf f ∉ SAFE_EXT → admitAttachment f n = .blockedType) ∧
    (∀ (f : Str) (n : Nat),
      extOf f ∈ SAFE_EXT → MAX_BYTES < n → admitAttachment f n = .blockedSize) ∧
    (admitAttachment "x.pdf".data 30000000 = .blockedSize) ∧
    (∀ (acc : Nat × List (Str × List Nat)) (p : Part) (rest : List Part),
      p.filename ≠ [] → p.attachmentId ≠ [] →
      admitAttachment p.filename p.blob.length ≠ .accepted →
      List.foldl gatherStep acc (p :: rest) =
        List.foldl gatherStep (acc.1 + 1, acc.2) rest) := by
  refine ⟨?_, ?_, ?_, by decide, ?_⟩
  · intro f n
    constructor
    · intro h
      by_cases he : extOf f ∈ SAFE_EXT
      · by_cases hn : n ≤ MAX_BYTES
        · exact ⟨he, hn⟩
        · rw [admitAttachment, if_neg (by simpa using he),
            if_pos (by omega)] at h
          simp at h
      · rw [admitAttachment, if_pos he] at h
        simp at h
    · intro ⟨he, hn⟩
      rw [admitAttachment, if_neg (by simpa using he), if_neg (by omega)]
  · intro f n he
    rw [admitAttachment, if_pos he]
  · intro f n he hn
    rw [admitAttachment, if_neg (by simpa using he), if_pos (by omega)]
  · intro acc p rest h1 h2 h3
    have : gatherStep acc p = (acc.1 + 1, acc.2) := by
      rw [gatherStep, if_neg (by simp [h1, h2])]
      cases ha : admitAttachment p.filename p.blob.length with
      | accepted => exact absurd ha h3
      | blockedType => rfl
      | blockedSize => rfl
    rw [List.foldl_cons, this]

/-- C3 witness: the conjuncts applied at concrete inputs. -/
theorem claim3_witness :
    (admitAttachment "x.exe".data 10 = .blockedType) ∧
    (admitAttachment "x.pdf".data 1000 = .accepted) ∧
    (List.foldl gatherStep (0, [])
      [⟨"x.exe".data, "id1".data, []⟩, ⟨"ok.pdf".data, "id2".data, [7]⟩] =
      List.foldl gatherStep (0 + 1, [])
        [⟨"ok.pdf".data, "id2".data, [7]⟩]) := by
  refine ⟨?_, ?_, ?_⟩
  · exact claim3_admission_filter.2.1 "x.exe".data 10 (by decide)
  · exact (claim3_admission_filter.1 "x.pdf".data 1000).mpr (by decide)
  · exact claim3_admission_filter.2.2.2.2 (0, [])
      ⟨"x.exe".data, "id1".data, []⟩ [⟨"ok.pdf".data, "id2".data, [7]⟩]
      (by decide) (by decide) (by decide)

theorem hasSub_iff (n h : Str) :
    hasSub n h = true ↔ ∃ s t, h = s ++ n ++ t := by
  induction h with
  | nil =>
    simp only [hasSub]
    constructor
    · intro hp
      cases n with
      | nil => exact ⟨[], [], rfl⟩
      | cons c t => simp at hp
    · rintro ⟨s, t, ht⟩
      have hs : s = [] := by
        cases s with
        | nil => rfl
        | cons a b => simp at ht
      subst hs
      have hn : n = [] := by
        cases n with
        | nil => rfl
        | cons a b => simp at ht
      subst hn
      simp
  | cons c rest ih =>
    simp only [hasSub, Bool.or_eq_true]
    constructor
    · rintro (hp | hsub)
      · have : n <+: c :: rest := by
          rwa [ List.isPrefixOf_iff_prefix] at hp
        obtain ⟨t, ht⟩ := this
        exact ⟨[], t, by simp [ht]⟩
      · obtain ⟨s, t, ht⟩ := ih.mp hsub
        exact ⟨c :: s, t, by simp [ht]⟩
    · rintro ⟨s, t, ht⟩
      cases s with
      | nil =>
        left
        rw [ List.isPrefixOf_iff_prefix]
        exact ⟨t, by simpa using ht.symm⟩
      | cons a s2 =>
        right
        apply ih.mpr
        refine ⟨s2, t, ?_⟩
        have := List.cons.inj ht
        simpa using this.2

theorem hasSub_spam_in {q : Str} (h : hasSub "-in:spam".data q = true) :
    hasSub "in:".data q = true := by
  obtain ⟨s, t, ht⟩ := (hasSub_iff _ _).mp h
  apply (hasSub_iff _ _).mpr
  refine ⟨s ++ ['-'], "spam".data ++ t, ?_⟩
  rw [ht]
  have : ("-in:spam".data : Str) = ['-'] ++ "in:".data ++ "spam".data := by
    decide
  rw [this]
  simp

/-- C7: the query sent to Gmail appends `in:inbox` exactly when the user
query has no `in:` qualifier and `-in:spam` exactly when it has no
`-in:spam` qualifier, and the effective query always carries `-in:spam`
as a substring. -/
theorem claim7_query_construction :
    (∀ q : Str, hasSub "in:".data q = false →
      gmailQuery q = q ++ " in:inbox -in:spam".data) ∧
    (∀ q : Str, hasSub "in:".data q = true →
      hasSub "-in:spam".data q = false →
      gmailQuery q = q ++ " -in:spam".data) ∧
    (∀ q : Str, hasSub "-in:spam".data q = true → gmailQuery q = q) ∧
    (∀ q : Str, hasSub "-in:spam".data (gmailQuery q) = true) := by
  have hq1 : ∀ q : Str, hasSub "in:".data q = false →
      gmailQuery q = q ++ " in:inbox -in:spam".data := by
    intro q h
    have hsp : hasSub "-in:spam".data q = false := by
      cases hc : hasSub "-in:spam".data q with
      | false => rfl
      | true => rw [hasSub_spam_in hc] at h; simp at h
    rw [gmailQuery, h, hsp]
    show joinSpace [q, "in:inbox".data, "-in:spam".data] = _
    rw [joinSpace, joinSpace, joinSpace]
    have : (" in:inbox -in:spam".data : Str) =
        ' ' :: ("in:inbox".data ++ ' ' :: "-in:spam".data) := by decide
    rw [this]
  have hq2 : ∀ q : Str, hasSub "in:".data q = true →
      hasSub "-in:spam".data q = false →
      gmailQuery q = q ++ " -in:spam".data := by
    intro q h hsp
    rw [gmailQuery, h, hsp]
    show joinSpace [q, "-in:spam".data] = _
    rw [joinSpace, joinSpace]
  have hq3 : ∀ q : Str, hasSub "-in:spam".data q = true →
      gmailQuery q = q := by
    intro q h
    rw [gmailQuery, h, hasSub_spam_in h]
    show joinSpace [q] = q
    rfl
  refine ⟨hq1, hq2, hq3, ?_⟩
  intro q
  cases hsp : hasSub "-in:spam".data q with
  | true =>
    rw [hq3 q hsp]
    exact hsp
  | false =>
    cases hin : hasSub "in:".data q with
    | true =>
      rw [hq2 q hin hsp]
      apply (hasSub_iff _ _).mpr
      refine ⟨q ++ [' '], [], ?_⟩
      have : (" -in:spam".data : Str) = ' ' :: "-in:spam".data := by decide
      rw [this]
      simp
    | false =>
      rw [hq1 q hin]
      apply (hasSub_iff _ _).mpr
      refine ⟨q ++ " in:inbox ".data, [], ?_⟩
      have : (" in:inbox -in:spam".data : Str) =
          " in:inbox ".data ++ "-in:spam".data := by decide
      rw [this]
      simp

/-- C7 witness: the conjuncts applied at concrete queries. -/
theorem claim7_witness :
    (gmailQuery "foo".data = "foo".data ++ " in:inbox -in:spam".data) ∧
    (gmailQuery "in:trash x".data = "in:trash x".data ++ " -in:spam".data) ∧
    (gmailQuery "a -in:spam".data = "a -in:spam".data) := by
  refine ⟨?_, ?_, ?_⟩
  · exact claim7_query_construction.1 "foo".data (by decide)
  · exact claim7_query_construction.2.1 "in:trash x".data (by decide) (by decide)
  · exact claim7_query_construction.2.2.1 "a -in:spam".data (by decide)

/-- The length invariant of the pagination loop: when every page honours
its requested `maxResults`, the accumulated ids never exceed the limit
(or zero for nonpositive limits). -/
theorem searchLoop_length {svc : Nat → Nat → GPage} {limit : Int}
    (hsvc : ∀ k n, ((svc k n).messages).length ≤ n) :
    ∀ (fuel k : Nat) (acc : List Str),
      (acc.length : Int) ≤ max limit 0 →
      (((searchLoop svc limit fuel k acc).1.length : Int)) ≤ max limit 0 := by
  intro fuel
  induction fuel with
  | zero => intro k acc h; exact h
  | succ f ih =>
    intro k acc h
    rw [searchLoop]
    by_cases hlt : (acc.length : Int) < limit
    · rw [if_pos hlt]
      have hpage := hsvc k (min 100 (limit - (acc.length : Int))).toNat
      have hmin : ((min 100 (limit - (acc.length : Int))).toNat : Int) =
          min 100 (limit - (acc.length : Int)) := by
        apply Int.toNat_of_nonneg
        omega
      have hlen : ((acc ++ (svc k (min 100 (limit -
          (acc.length : Int))).toNat).messages).length : Int) ≤ max limit 0 := by
        rw [List.length_append]
        push_cast
        have : ((((svc k (min 100 (limit - (acc.length : Int))).toNat).messages).length : Int)) ≤
            ((min 100 (limit - (acc.length : Int))).toNat : Int) := by
          exact_mod_cast hpage
        rw [hmin] at this
        omega
      cases htok : (svc k (min 100 (limit - (acc.length : Int))).toNat).nextPageToken with
      | none => simpa [htok] using hlen
      | some t => simpa [htok] using ih (k + 1) _ hlen
    · rw [if_neg hlt]
      exact h

/-- C10: `search_gmail` returns at most `limit` ids (at most zero for a
nonpositive limit); a nonpositive limit short-circuits to the empty list
with no request issued; and a page without a next-page token ends the
loop right after it, independently of the remaining fuel. -/
theorem claim10_search_gmail :
    (∀ (svc : Nat → Nat → GPage) (limit : Int) (fuel : Nat),
      limit ≤ 0 → search_gmail svc limit fuel = ([], 0)) ∧
    (∀ (svc : Nat → Nat → GPage) (limit : Int) (fuel : Nat),
      (∀ k n, ((svc k n).messages).length ≤ n) →
      (((search_gmail svc limit fuel).1.length : Int)) ≤ max limit 0) ∧
    (∀ (svc : Nat → Nat → GPage) (limit : Int) (fuel k : Nat) (acc : List Str),
      (∀ n, (svc k n).nextPageToken = none) →
      searchLoop svc limit (fuel + 1) k acc = searchLoop svc limit 1 k acc) := by
  refine ⟨?_, ?_, ?_⟩
  · intro svc limit fuel h
    cases fuel with
    | zero => rfl
    | succ f =>
      rw [search_gmail, searchLoop, if_neg (by simp; omega)]
  · intro svc limit fuel hsvc
    exact searchLoop_length hsvc fuel 0 [] (by simp)
  · intro svc limit fuel k acc htok
    rw [searchLoop, searchLoop]
    by_cases hlt : (acc.length : Int) < limit
    · simp only [if_pos hlt, htok]
    · rw [if_neg hlt, if_neg hlt]

/-- C10 witness: the conjuncts applied at a concrete service. -/
theorem claim10_witness :
    (search_gmail (fun _ _ => ⟨["m1".data], none⟩) 0 5 = ([], 0)) ∧
    (((search_gmail (fun _ _ => ⟨[], none⟩) 3 5).1.length : Int) ≤ max 3 0) ∧
    (searchLoop (fun _ _ => ⟨["m1".data], none⟩) 3 4 0 [] =
      searchLoop (fun _ _ => ⟨["m1".data], none⟩) 3 1 0 []) := by
  refine ⟨?_, ?_, ?_⟩
  · exact claim10_search_gmail.1 (fun _ _ => ⟨["m1".data], none⟩) 0 5 (by omega)
  · exact claim10_search_gmail.2.1 (fun _ _ => ⟨[], none⟩) 3 5
      (fun k n => by simp)
  · exact claim10_search_gmail.2.2 (fun _ _ => ⟨["m1".data], none⟩) 3 3 0 []
      (fun n => rfl)

theorem strVal_append_digit (s : Str) (d : Nat) (hd : d < 10) :
    strVal (s ++ [digitChar d]) = 10 * strVal s + d := by
  have hc : (digitChar d).toNat = 48 + d := by
    interval_cases d <;> rfl
  simp [strVal, List.foldl_append, hc]

theorem strVal_natToStrGo : ∀ (fuel n : Nat), n < fuel →
    strVal (natToStrGo fuel n) = n := by
  intro fuel
  induction fuel with
  | zero => intro n h; omega
  | succ f ih =>
    intro n h
    rw [natToStrGo]
    by_cases h10 : n < 10
    · rw [if_pos h10]
      have hc : (digitChar n).toNat = 48 + n := by
        interval_cases n <;> rfl
      simp [strVal, hc]
    · rw [if_neg h10]
      have hdiv : n / 10 < f := by
        have := Nat.div_lt_self (by omega : 0 < n) (by omega : 1 < 10)
        omega
      rw [strVal_append_digit _ _ (Nat.mod_lt n (by omega))]
      rw [ih (n / 10) hdiv]
      omega

theorem natToStr_injective {a b : Nat} (h : natToStr a = natToStr b) :
    a = b := by
  have ha := strVal_natToStrGo (a + 1) a (by omega)
  have hb := strVal_natToStrGo (b + 1) b (by omega)
  rw [natToStr] at h
  rw [natToStr] at h
  rw [← ha, ← hb, h]

theorem pyAllocCandidate_injective (stem ext : Str) {a b : Nat}
    (h : pyAllocCandidate stem ext a = pyAllocCandidate stem ext b) :
    a = b := by
  rw [pyAllocCandidate, pyAllocCandidate] at h
  have h1 := List.append_cancel_left h
  have h2 : natToStr a ++ ')' :: ext = natToStr b ++ ')' :: ext := by
    have := List.cons.inj h1
    have := List.cons.inj this.2
    exact this.2
  exact natToStr_injective (List.append_cancel_right h2)

theorem alloc_exists_free (fs : Finset Str) (stem ext : Str) :
    ∃ k, k < fs.card + 1 ∧ pyAllocCandidate stem ext (1 + k) ∉ fs := by
  by_contra hcon
  push_neg at hcon
  have hmaps : ∀ k ∈ Finset.range (fs.card + 1),
      pyAllocCandidate stem ext (1 + k) ∈ fs := by
    intro k hk
    exact hcon k (Finset.mem_range.mp hk)
  have hinj : Set.InjOn (fun k => pyAllocCandidate stem ext (1 + k))
      (Finset.range (fs.card + 1)) := by
    intro x _ y _ hxy
    have := pyAllocCandidate_injective stem ext hxy
    omega
  have := Finset.card_le_card_of_injOn _ hmaps hinj
  simp at this

theorem allocateLoop_not_mem (fs : Finset Str) (stem ext : Str) :
    ∀ (fuel n : Nat), (∃ k, k < fuel ∧ pyAllocCandidate stem ext (n + k) ∉ fs) →
      allocateLoop fs stem ext fuel n ∉ fs := by
  intro fuel
  induction fuel with
  | zero =>
    intro n h
    obtain ⟨k, hk, _⟩ := h
    omega
  | succ f ih =>
    intro n h
    rw [allocateLoop]
    by_cases hc : pyAllocCandidate stem ext n ∈ fs
    · rw [if_pos hc]
      apply ih
      obtain ⟨k, hk, hfree⟩ := h
      cases k with
      | zero => simp at hfree; exact absurd hc hfree
      | succ k2 =>
        refine ⟨k2, by omega, ?_⟩
        have : n + 1 + k2 = n + (k2 + 1) := by omega
        rw [this]
        exact hfree
    · rw [if_neg hc]
      exact hc

theorem allocate_not_mem (fs : Finset Str) (p : Str) : allocate fs p ∉ fs := by
  rw [allocate]
  by_cases hp : p ∈ fs
  · rw [if_pos hp]
    apply allocateLoop_not_mem
    obtain ⟨k, hk, hfree⟩ := alloc_exists_free fs (splitext p).1 (splitext p).2
    exact ⟨k, by omega, hfree⟩
  · rw [if_neg hp]
    exact hp

theorem allocateAll_not_mem (ps : List Str) :
    ∀ (fs : Finset Str) (q : Str), q ∈ allocateAll fs ps → q ∉ fs := by
  induction ps with
  | nil => intro fs q h; simp [allocateAll] at h
  | cons p rest ih =>
    intro fs q h
    rw [allocateAll] at h
    rcases List.mem_cons.mp h with rfl | htail
    · exact allocate_not_mem fs p
    · intro hq
      exact ih _ q htail (Finset.mem_insert_of_mem hq)

/-- C8 (amended): the hosted-mode loop of src/pytenberg.py writes each
attachment at its sanitized name with no dedup (see the counterexample);
the call-time-checked allocator is the spec's Path Allocator for the
local mode (absent from src/, modelled from the spec), and it does return
a path distinct from every existing one, so a sequential caller recording
each allocation never collides; the `report (1).pdf` / `report (2).pdf`
examples hold for it. -/
theorem claim8_allocator :
    (∀ (fs : Finset Str) (p : Str), allocate fs p ∉ fs) ∧
    (∀ (fs : Finset Str) (ps : List Str), (allocateAll fs ps).Nodup) ∧
    (allocate {"report.pdf".data} "report.pdf".data = "report (1).pdf".data) ∧
    (allocate (insert "report.pdf".data {"report (1).pdf".data})
      "report.pdf".data = "report (2).pdf".data) := by
  refine ⟨allocate_not_mem, ?_, by decide, by decide⟩
  intro fs ps
  induction ps generalizing fs with
  | nil => simp [allocateAll]
  | cons p rest ih =>
    rw [allocateAll]
    refine List.nodup_cons.mpr ⟨?_, ih _⟩
    intro hmem
    exact allocateAll_not_mem rest _ _ hmem (Finset.mem_insert_self _ _)

/-- C8 witness: the allocator conjuncts applied at concrete inputs. -/
theorem claim8_witness :
    allocate {"report.pdf".data} "report.pdf".data ∉
      ({"report.pdf".data} : Finset Str) ∧
    (allocateAll ∅ ["a.pdf".data, "a.pdf".data, "a.pdf".data]).Nodup :=
  ⟨claim8_allocator.1 {"report.pdf".data} "report.pdf".data,
   claim8_allocator.2.1 ∅ ["a.pdf".data, "a.pdf".data, "a.pdf".data]⟩

/-- C8 fails as stated against the hosted-mode code: a message holding two
attachments both named `report.pdf` has both written to the same
destination path, the second write overwriting the first. -/
theorem claim8_counterexample :
    ¬ (runWritePaths ∅ false
      [⟨"m1".data, .ok ⟨some "S".data,
        [⟨"report.pdf".data, "a1".data, [1]⟩,
         ⟨"report.pdf".data, "a2".data, [2]⟩], [9]⟩⟩]).Nodup := by decide

theorem plainChar_facts {c : Char} (h : plainChar c = true) :
    ¬ c.toNat < 0x20 ∧ c ≠ '"' ∧ c ≠ '\\' := by
  rw [plainChar] at h
  simp only [Bool.and_eq_true, decide_eq_true_eq, ne_eq] at h
  exact ⟨by omega, h.1.2, h.2⟩

theorem plainStr_cons {c : Char} {s : Str} (h : plainStr (c :: s) = true) :
    plainChar c = true ∧ plainStr s = true := by
  rw [plainStr, List.all_cons] at h
  exact ⟨(Bool.and_eq_true _ _).mp h |>.1, (Bool.and_eq_true _ _).mp h |>.2⟩

theorem escChar_plain {c : Char} (h : plainChar c = true) : escChar c = [c] := by
  rw [escChar, if_pos h]

theorem escStr_plain {s : Str} (h : plainStr s = true) : escStr s = s := by
  induction s with
  | nil => rfl
  | cons c s2 ih =>
    obtain ⟨hc, hs2⟩ := plainStr_cons h
    rw [escStr, List.flatMap_cons, escChar_plain hc]
    have := ih hs2
    rw [escStr] at this
    rw [this]
    rfl

theorem parseStringBody_plain {s : Str} (h : plainStr s = true) (r : Str) :
    parseStringBody (s ++ '"' :: r) = some (s, r) := by
  induction s with
  | nil =>
    rw [List.nil_append, parseStringBody.eq_def]
    dsimp only
    rw [if_pos rfl]
  | cons c s2 ih =>
    obtain ⟨hc, hs2⟩ := plainStr_cons h
    obtain ⟨hctl, hq, hbs⟩ := plainChar_facts hc
    rw [List.cons_append, parseStringBody.eq_def]
    dsimp only
    rw [if_neg hq, if_neg hbs, if_neg hctl, ih hs2]

theorem skipWs_not {c : Char} (h : isJsonWs c = false) (r : Str) :
    skipWs (c :: r) = c :: r := by
  simp [skipWs, List.dropWhile_cons, h]

theorem skipWs_sp (r : Str) : skipWs (' ' :: r) = skipWs r := by
  simp [skipWs, List.dropWhile_cons, (by decide : isJsonWs ' ' = true)]

theorem parsePair_lit {k v : Str} (hk : plainStr k = true)
    (hv : plainStr v = true) (r : Str) :
    parsePair ('"' :: (k ++ '"' :: ':' :: ' ' :: '"' :: (v ++ '"' :: r))) =
      some ((k, v), r) := by
  have w1 : ∀ t : Str, skipWs ('"' :: t) = '"' :: t :=
    fun t => skipWs_not (by decide) t
  have w2 : ∀ t : Str, skipWs (':' :: t) = ':' :: t :=
    fun t => skipWs_not (by decide) t
  simp only [parsePair, w1, w2, skipWs_sp, parseStringBody_plain hk,
    parseStringBody_plain hv, Char.reduceEq, reduceIte]

theorem parsePair_sp (s : Str) : parsePair (' ' :: s) = parsePair s := by
  rw [parsePair, parsePair, skipWs_sp]

theorem parsePairs_sp (f : Nat) (s : Str) (acc : List (Str × Str)) :
    parsePairs f (' ' :: s) acc = parsePairs f s acc := by
  cases f with
  | zero => rfl
  | succ g => rw [parsePairs, parsePairs, parsePair_sp]

theorem parsePairs_mid {k v : Str} (hk : plainStr k = true)
    (hv : plainStr v = true) (f : Nat) (next : Str) (acc : List (Str × Str)) :
    parsePairs (f + 1)
      ('"' :: (k ++ '"' :: ':' :: ' ' :: '"' :: (v ++ '"' :: ',' :: ' ' :: next)))
      acc = parsePairs f next (acc ++ [(k, v)]) := by
  have w3 : ∀ t : Str, skipWs (',' :: t) = ',' :: t :=
    fun t => skipWs_not (by decide) t
  simp only [parsePairs, parsePair_lit hk hv, w3, Char.reduceEq, reduceIte]
  exact parsePairs_sp f next (acc ++ [(k, v)])

theorem parsePairs_last {k v : Str} (hk : plainStr k = true)
    (hv : plainStr v = true) (f : Nat) (acc : List (Str × Str)) :
    parsePairs (f + 1)
      ('"' :: (k ++ '"' :: ':' :: ' ' :: '"' ::
        (v ++ '"' :: Char.ofNat 0x7d :: []))) acc =
      some (acc ++ [(k, v)], []) := by
  have w4 : skipWs (Char.ofNat 0x7d :: []) = Char.ofNat 0x7d :: [] :=
    skipWs_not (by decide) _
  simp only [parsePairs, parsePair_lit hk hv, w4]
  simp

theorem dumpsRecord_parse {ts gid subj dir : Str} (hts : plainStr ts = true)
    (hgid : plainStr gid = true) (hsubj : plainStr subj = true)
    (hdir : plainStr dir = true) :
    jsonLoads (dumpsRecord ts gid subj dir) =
      some [("ts".data, ts), ("gmail_id".data, gid),
            ("subject".data, subj), ("dir".data, dir)] := by
  have hshape : dumpsRecord ts gid subj dir =
      Char.ofNat 0x7b :: '"' :: ("ts".data ++ '"' :: ':' :: ' ' :: '"' ::
        (ts ++ '"' :: ',' :: ' ' :: '"' ::
          ("gmail_id".data ++ '"' :: ':' :: ' ' :: '"' ::
        (gid ++ '"' :: ',' :: ' ' :: '"' ::
          ("subject".data ++ '"' :: ':' :: ' ' :: '"' ::
        (subj ++ '"' :: ',' :: ' ' :: '"' ::
          ("dir".data ++ '"' :: ':' :: ' ' :: '"' ::
        (dir ++ '"' :: Char.ofNat 0x7d :: [])))))))) := by
    rw [dumpsRecord, jquote, jquote, jquote, jquote, escStr_plain hts,
      escStr_plain hgid, escStr_plain hsubj, escStr_plain hdir]
    have l1 : ("\x7b\"ts\": ".data : Str) =
        Char.ofNat 0x7b :: '"' :: 't' :: 's' :: '"' :: ':' :: ' ' :: [] := by
      decide
    have l2 : (", \"gmail_id\": ".data : Str) =
        ',' :: ' ' :: '"' :: 'g' :: 'm' :: 'a' :: 'i' :: 'l' :: '_' :: 'i' ::
          'd' :: '"' :: ':' :: ' ' :: [] := by decide
    have l3 : (", \"subject\": ".data : Str) =
        ',' :: ' ' :: '"' :: 's' :: 'u' :: 'b' :: 'j' :: 'e' :: 'c' :: 't' ::
          '"' :: ':' :: ' ' :: [] := by decide
    have l4 : (", \"dir\": ".data : Str) =
        ',' :: ' ' :: '"' :: 'd' :: 'i' :: 'r' :: '"' :: ':' :: ' ' :: [] := by
      decide
    have l5 : ("\x7d".data : Str) = Char.ofNat 0x7d :: [] := by decide
    have l6 : ("ts".data : Str) = 't' :: 's' :: [] := by decide
    have l7 : ("gmail_id".data : Str) =
        'g' :: 'm' :: 'a' :: 'i' :: 'l' :: '_' :: 'i' :: 'd' :: [] := by decide
    have l8 : ("subject".data : Str) =
        's' :: 'u' :: 'b' :: 'j' :: 'e' :: 'c' :: 't' :: [] := by decide
    have l9 : ("dir".data : Str) = 'd' :: 'i' :: 'r' :: [] := by decide
    rw [l1, l2, l3, l4, l5, l6, l7, l8, l9]
    simp [List.append_assoc]
  rw [hshape, jsonLoads]
  have w0 : ∀ t : Str, skipWs (Char.ofNat 0x7b :: t) = Char.ofNat 0x7b :: t :=
    fun t => skipWs_not (by decide) t
  have w1 : ∀ t : Str, skipWs ('"' :: t) = '"' :: t :=
    fun t => skipWs_not (by decide) t
  rw [w0]
  dsimp only
  rw [if_pos rfl, w1]
  dsimp only
  rw [if_neg (by decide)]
  set B := '"' :: ("ts".data ++ '"' :: ':' :: ' ' :: '"' ::
    (ts ++ '"' :: ',' :: ' ' :: '"' ::
      ("gmail_id".data ++ '"' :: ':' :: ' ' :: '"' ::
    (gid ++ '"' :: ',' :: ' ' :: '"' ::
      ("subject".data ++ '"' :: ':' :: ' ' :: '"' ::
    (subj ++ '"' :: ',' :: ' ' :: '"' ::
      ("dir".data ++ '"' :: ':' :: ' ' :: '"' ::
    (dir ++ '"' :: Char.ofNat 0x7d :: [])))))))) with hB
  obtain ⟨M, hM⟩ : ∃ M, (Char.ofNat 0x7b :: B).length + 1 = M + 1 + 1 + 1 + 1 := by
    refine ⟨(Char.ofNat 0x7b :: B).length + 1 - 4, ?_⟩
    have : 3 ≤ (Char.ofNat 0x7b :: B).length := by
      rw [hB]
      simp [List.length_cons]
    omega
  rw [hM, hB]
  rw [parsePairs_mid (by decide) hts, parsePairs_mid (by decide) hgid,
    parsePairs_mid (by decide) hsubj, parsePairs_last (by decide) hdir]
  dsimp only [skipWs, List.dropWhile]
  rw [if_pos rfl]
  simp

theorem lookupLast_gid (ts gid subj dir : Str) :
    lookupLast "gmail_id".data
      [("ts".data, ts), ("gmail_id".data, gid),
       ("subject".data, subj), ("dir".data, dir)] = some gid := by
  rw [lookupLast]
  have hrev : ([("ts".data, ts), ("gmail_id".data, gid),
      ("subject".data, subj), ("dir".data, dir)] : List (Str × Str)).reverse =
      [("dir".data, dir), ("subject".data, subj),
       ("gmail_id".data, gid), ("ts".data, ts)] := by simp
  rw [hrev, List.find?_cons_of_neg _ (by simp),
    List.find?_cons_of_neg _ (by simp), List.find?_cons_of_pos _ (by simp)]
  rfl

theorem loadLedger_append_record (file : List Str) (ts gid subj dir : Str)
    (hts : plainStr ts = true) (hgid : plainStr gid = true)
    (hsubj : plainStr subj = true) (hdir : plainStr dir = true)
    (hne : gid ≠ []) :
    gid ∈ loadLedger (file ++ [dumpsRecord ts gid subj dir]) := by
  rw [loadLedger, List.foldl_append, List.foldl_cons, List.foldl_nil]
  dsimp only
  rw [dumpsRecord_parse hts hgid hsubj hdir]
  dsimp only
  rw [lookupLast_gid]
  dsimp only
  rw [if_pos hne]
  exact Finset.mem_insert_self _ _

/-- C5: a ledger line written by `append_ledger` is recovered by
`load_ledger` (the appended source id is in the reloaded set), and a line
of invalid JSON is skipped silently: loading a file with such a line
yields exactly the load of the file without it, so all well-formed lines
before and after it still contribute. -/
theorem claim5_ledger_roundtrip :
    (∀ (file : List Str) (ts gid subj dir : Str),
      plainStr ts = true → plainStr gid = true → plainStr subj = true →
      plainStr dir = true → gid ≠ [] →
      gid ∈ loadLedger (file ++ [appendLedgerLine ts gid subj dir])) ∧
    (∀ (pre post : List Str) (bad : Str), jsonLoads bad = none →
      loadLedger (pre ++ bad :: post) = loadLedger (pre ++ post)) := by
  constructor
  · intro file ts gid subj dir hts hgid hsubj hdir hne
    have hsubj2 : plainStr (subj.take 120) = true := by
      rw [plainStr, List.all_eq_true]
      intro x hx
      exact List.all_eq_true.mp hsubj x (List.take_subset 120 subj hx)
    rw [appendLedgerLine]
    exact loadLedger_append_record file ts gid (subj.take 120) dir hts hgid
      hsubj2 hdir hne
  · intro pre post bad h
    rw [loadLedger, loadLedger, List.foldl_append, List.foldl_append,
      List.foldl_cons]
    dsimp only
    rw [h]

/-- C5 witness: both parts applied at concrete inputs. -/
theorem claim5_witness :
    "g1".data ∈ loadLedger
      ([] ++ [appendLedgerLine "2024T".data "g1".data "subj".data "out".data]) ∧
    loadLedger (["x".data] ++ "nope".data :: []) = loadLedger (["x".data] ++ []) := by
  constructor
  · exact claim5_ledger_roundtrip.1 [] "2024T".data "g1".data "subj".data
      "out".data (by decide) (by decide) (by decide) (by decide) (by decide)
  · exact claim5_ledger_roundtrip.2 ["x".data] [] "nope".data (by decide)

end Pytenberg
